import Mathlib

/-!
# Verification of the Hinge-like dating-app simulation engine

This file is a shallow embedding of `run_dating_simulation` from
`src/backend.py` (the simulation engine), together with theorems settling
the specification claims about it.

Modelling conventions:
* User identifiers are natural numbers.  The Python code determines group
  membership with `user.startswith("W")`; here the environment carries the
  two identifier lists (`women`, `men`) and membership in `women` plays the
  role of the `"W"` prefix test.
* Probabilities and the queue-penalty weight are rationals (Python floats
  are a subset of the rationals; float rounding is idealised away, as the
  spec states the scoring formula over exact arithmetic).  The reciprocal
  weight `w_r` appears as an exponent (`reciprocal_prob ** weight_reciprocal`);
  in the simulation it is modelled at natural-number values, while the
  real-valued scoring formula is analysed separately (`scoreFormula`).
  Fractional reciprocal weights are outside the simulation model: on them
  the Python float power can leave the reals (a negative probability under
  a fractional exponent is complex in Python 3, and the subsequent sort
  raises a TypeError), and no theorem below speaks about such runs.
* The two pseudo-random streams of the Python code are modelled as oracles
  supplied by the environment: `loginOrder` gives each day's shuffled user
  list (`random.shuffle`), and `rolls` is the `np.random.rand()` stream,
  consumed one value per evaluation via a counter carried in the state.
-/

namespace DatingSim

/-- Queue source tag of an evaluation: the Python strings `"incoming"` and
`"fresh"` (backend.py lines 142-143). -/
inductive Source where
  | incoming
  | fresh
deriving DecidableEq, Repr

/-- One row of `day_records` (backend.py lines 165-175).  The Python
`Decision` strings `"Like"`/`"Pass"` are modelled by the Boolean `like`. -/
structure EvalRecord where
  day : ℕ
  user : ℕ
  cand : ℕ
  source : Source
  likeProb : ℚ
  roll : ℚ
  like : Bool
  matchFormed : Bool
  delay : ℤ
deriving DecidableEq, Repr

/-- The mutable simulation state (backend.py lines 86-90), plus the position
in the modelled `np.random.rand()` stream.
`incoming` is `incoming_likes` (pending `(sender, day_sent)` pairs),
`matches` is `matches`, `likesSent` is `likes_sent`. -/
structure SimState where
  incoming : ℕ → List (ℕ × ℕ)
  matchSet : ℕ → Finset ℕ
  likesSent : ℕ → Finset ℕ
  rollIdx : ℕ

/-- The zeroed initial state (backend.py lines 88-90). -/
def initState : SimState :=
  { incoming := fun _ => []
    matchSet := fun _ => ∅
    likesSent := fun _ => ∅
    rollIdx := 0 }

/-- The fixed inputs of a run: the two identifier groups, the two probability
matrices (`prob_women_likes_men.loc[w, m]` is `probWM w m`, and
`prob_men_likes_women.loc[m, w]` is `probMW m w`), and the two random
oracles described in the header. -/
structure Env where
  women : List ℕ
  men : List ℕ
  probWM : ℕ → ℕ → ℚ
  probMW : ℕ → ℕ → ℚ
  loginOrder : ℕ → List ℕ
  rolls : ℕ → ℚ

/-- Run configuration (the parameters of `run_dating_simulation`,
backend.py lines 44-51).  `C` is `daily_queue_size`, `lifo` is the test
`incoming_order.upper() == "LIFO"`, `wq` is `weight_queue_penalty`.
`wr` is `weight_reciprocal` RESTRICTED to natural values: the float
exponent at fractional values is not modelled (there the program can even
produce complex scores and crash in `sorted`, see the header note). -/
structure Config where
  numDays : ℕ
  C : ℕ
  lifo : Bool
  wr : ℕ
  wq : ℚ

/-- Group test: the Python `user.startswith("W")` (backend.py line 102),
realised as membership in the women list. -/
def isWoman (env : Env) (user : ℕ) : Bool :=
  user ∈ env.women

/-- The opposite-group identifier list used for the candidate pool
(backend.py lines 103 and 107). -/
def oppPool (env : Env) (user : ℕ) : List ℕ :=
  if isWoman env user then env.men else env.women

/-- `get_prob` (backend.py lines 104 and 108): probability that `user`
expresses interest in a candidate. -/
def getProbFn (env : Env) (user : ℕ) : ℕ → ℚ :=
  if isWoman env user then fun c => env.probWM user c else fun c => env.probMW user c

/-- `get_reciprocal` (backend.py lines 105 and 109): probability that the
candidate expresses interest in `user`. -/
def getRecipFn (env : Env) (user : ℕ) : ℕ → ℚ :=
  if isWoman env user then fun c => env.probMW c user else fun c => env.probWM c user

/-- The incoming-portion take (backend.py lines 111-118): view the pending
queue in arrival order (FIFO) or reversed (LIFO), take the first
`min(length, daily_queue_size)` entries, keep the rest. -/
def drainIncoming (lifo : Bool) (cap : ℕ) (q : List (ℕ × ℕ)) :
    List (ℕ × ℕ) × List (ℕ × ℕ) :=
  let view := if lifo then q.reverse else q
  let n := min view.length cap
  (view.take n, view.drop n)

/-- The scoring formula of backend.py lines 128-133:
`score = base_prob * (1 / (1 + weight_queue_penalty * q)) * reciprocal_prob ** weight_reciprocal`.
Caution: rational division totalizes `1/0` to `0`, whereas the Python
expression raises ZeroDivisionError when `1 + wq*q` vanishes — possible
only for a negative `wq`.  Whole-run theorems therefore assume `0 ≤ wq`,
the configured range, under which the denominator is provably positive
and the two semantics agree. -/
def qScore (baseProb : ℚ) (wq : ℚ) (q : ℕ) (recip : ℚ) (wr : ℕ) : ℚ :=
  baseProb * (1 / (1 + wq * (q : ℚ))) * recip ^ wr

/-- Stable descending insertion (by score, the second component).
`sortDesc` folds from the right, so the inserted pair precedes every
already-inserted pair in the original list; placing it before the first
pair of score ≤ its own keeps equal-score pairs in their original
relative order.  A stable sort is uniquely determined by its comparison,
so this agrees with Python's stable `sorted(..., key=score, reverse=True)`
(backend.py line 136). -/
def insertDesc (p : ℕ × ℚ) : List (ℕ × ℚ) → List (ℕ × ℚ)
  | [] => [p]
  | q :: rest => if q.2 ≤ p.2 then p :: q :: rest else q :: insertDesc p rest

/-- Stable descending sort by score (backend.py line 136). -/
def sortDesc (l : List (ℕ × ℚ)) : List (ℕ × ℚ) :=
  l.foldr insertDesc []

/-- Fresh-recommendation selection (backend.py lines 124-139): score every
candidate of the pool, and if `num_fresh > 0` and the score table is
nonempty, take the first `num_fresh` candidates by descending score. -/
def freshSelect (pool : List ℕ) (scoreOf : ℕ → ℚ) (numFresh : ℕ) : List ℕ :=
  if 0 < numFresh ∧ pool.map (fun c => (c, scoreOf c)) ≠ [] then
    ((sortDesc (pool.map (fun c => (c, scoreOf c)))).take numFresh).map Prod.fst
  else []

/-- The incoming entries taken for `user` today (backend.py line 116). -/
def drainedQueue (cfg : Config) (st : SimState) (user : ℕ) : List (ℕ × ℕ) :=
  (drainIncoming cfg.lifo cfg.C (st.incoming user)).1

/-- The pending entries left behind for `user` (backend.py line 118). -/
def drainRest (cfg : Config) (st : SimState) (user : ℕ) : List (ℕ × ℕ) :=
  (drainIncoming cfg.lifo cfg.C (st.incoming user)).2

/-- The state right after the user's queue drain is committed
(backend.py line 118). -/
def postDrainState (cfg : Config) (st : SimState) (user : ℕ) : SimState :=
  { st with incoming := fun x => if x = user then drainRest cfg st user else st.incoming x }

/-- The candidate pool after both exclusions: already-matched users
(backend.py lines 103/107) and senders of the incoming portion just taken
(backend.py lines 120-122). -/
def poolAfterExclusions (env : Env) (cfg : Config) (st : SimState) (user : ℕ) : List ℕ :=
  ((oppPool env user).filter (fun c => c ∉ st.matchSet user)).filter
    (fun c => c ∉ (drainedQueue cfg st user).map Prod.fst)

/-- The live score of a candidate for `user` (backend.py lines 127-134):
`q` is the CURRENT length of the candidate's pending queue, read after the
user's own drain was committed. -/
def liveScore (env : Env) (cfg : Config) (st : SimState) (user : ℕ) (c : ℕ) : ℚ :=
  qScore (getProbFn env user c) cfg.wq
    ((postDrainState cfg st user).incoming c).length
    (getRecipFn env user c) cfg.wr

/-- The fresh recommendation list shown to `user` (backend.py lines 124-139);
`num_fresh = daily_queue_size - num_incoming`. -/
def freshOf (env : Env) (cfg : Config) (st : SimState) (user : ℕ) : List ℕ :=
  freshSelect (poolAfterExclusions env cfg st user) (liveScore env cfg st user)
    (cfg.C - (drainedQueue cfg st user).length)

/-- The daily queue (backend.py lines 141-143): tagged incoming entries
followed by tagged fresh entries, fresh entries carrying today's date. -/
def dailyQueueOf (env : Env) (cfg : Config) (day : ℕ) (st : SimState) (user : ℕ) :
    List (ℕ × Source × ℕ) :=
  (drainedQueue cfg st user).map (fun p => (p.1, Source.incoming, p.2))
    ++ (freshOf env cfg st user).map (fun c => (c, Source.fresh, day))

/-- One candidate evaluation (backend.py lines 150-175), for an item that
was not skipped: draw a roll, decide, update interest/match state, and
produce the record. -/
def evalOne (rolls : ℕ → ℚ) (getProb : ℕ → ℚ) (day user : ℕ) (st : SimState)
    (cand : ℕ) (src : Source) (sentDay : ℕ) : SimState × EvalRecord :=
  let likeProb := getProb cand
  let roll := rolls st.rollIdx
  let st' := { st with rollIdx := st.rollIdx + 1 }
  if roll < likeProb then
    if user ∈ st'.likesSent cand then
      ({ st' with
          matchSet := fun x =>
            if x = user then insert cand (st'.matchSet user)
            else if x = cand then insert user (st'.matchSet cand)
            else st'.matchSet x },
        ⟨day, user, cand, src, likeProb, roll, true, true, (day : ℤ) - (sentDay : ℤ)⟩)
    else
      ({ st' with
          likesSent := fun x =>
            if x = user then insert cand (st'.likesSent user) else st'.likesSent x,
          incoming :=
            if src = Source.fresh then
              fun x => if x = cand then st'.incoming cand ++ [(user, day)] else st'.incoming x
            else st'.incoming },
        ⟨day, user, cand, src, likeProb, roll, true, false, (day : ℤ) - (sentDay : ℤ)⟩)
  else
    (st', ⟨day, user, cand, src, likeProb, roll, false, false, (day : ℤ) - (sentDay : ℤ)⟩)

/-- The queue-processing loop (backend.py lines 146-175): skip candidates
already matched (consuming no roll), evaluate the rest in order. -/
def evalQueue (rolls : ℕ → ℚ) (getProb : ℕ → ℚ) (day user : ℕ) :
    List (ℕ × Source × ℕ) → SimState → SimState × List EvalRecord
  | [], st => (st, [])
  | item :: rest, st =>
    if item.1 ∈ st.matchSet user then evalQueue rolls getProb day user rest st
    else
      let sr := evalOne rolls getProb day user st item.1 item.2.1 item.2.2
      let srs := evalQueue rolls getProb day user rest sr.1
      (srs.1, sr.2 :: srs.2)

/-- Everything one user does on login (backend.py lines 100-175): commit the
queue drain, build the daily queue, process it. -/
def processUser (env : Env) (cfg : Config) (day : ℕ) (st : SimState) (user : ℕ) :
    SimState × List EvalRecord :=
  evalQueue env.rolls (getProbFn env user) day user
    (dailyQueueOf env cfg day st user) (postDrainState cfg st user)

/-- The per-day loop over the login order (backend.py lines 100, 165):
process each user in sequence, concatenating their records. -/
def runDayUsers (env : Env) (cfg : Config) (day : ℕ) :
    List ℕ → SimState → SimState × List EvalRecord
  | [], st => (st, [])
  | u :: rest, st =>
    let sr := processUser env cfg day st u
    let srs := runDayUsers env cfg day rest sr.1
    (srs.1, sr.2 ++ srs.2)

/-- One simulated day (backend.py lines 95-176). -/
def runDay (env : Env) (cfg : Config) (day : ℕ) (st : SimState) :
    SimState × List EvalRecord :=
  runDayUsers env cfg day (env.loginOrder day) st

/-- The state and per-day logs after the first `k` days (backend.py
lines 92-176; days are numbered from 1). -/
def runDays (env : Env) (cfg : Config) : ℕ → SimState × List (List EvalRecord)
  | 0 => (initState, [])
  | k + 1 =>
    let sl := runDays env cfg k
    let sr := runDay env cfg (k + 1) sl.1
    (sr.1, sl.2 ++ [sr.2])

/-- The whole run (backend.py lines 95-178): `num_days` days, returning the
final state and the list of daily logs. -/
def runSim (env : Env) (cfg : Config) : SimState × List (List EvalRecord) :=
  runDays env cfg cfg.numDays

/-! ## Concrete worlds used by counterexamples and witnesses -/

/-- World with one woman (0) and three men (1, 2, 3); every man always likes
the woman (probability 1), she never likes anyone (probability 0), and every
random roll is 0.  On day 1 the men log in first, so her pending queue ends
day 1 holding likes from all three men (minus what she drained). -/
def envThree : Env :=
  { women := [0], men := [1, 2, 3]
    probWM := fun _ _ => 0
    probMW := fun _ _ => 1
    loginOrder := fun d => if d = 1 then [1, 2, 3, 0] else [3, 0, 1, 2]
    rolls := fun _ => 0 }

/-- FIFO configuration with capacity 2 over two days. -/
def cfgFifo2 : Config := { numDays := 2, C := 2, lifo := false, wr := 1, wq := 1/2 }

/-- LIFO configuration with capacity 1 over one day. -/
def cfgLifo1 : Config := { numDays := 1, C := 1, lifo := true, wr := 1, wq := 1/2 }

/-- Two-user world (woman 0, man 1) where everyone likes everyone
(probability 1) and every roll is 0. -/
def envPair : Env :=
  { women := [0], men := [1]
    probWM := fun _ _ => 1
    probMW := fun _ _ => 1
    loginOrder := fun _ => [0, 1]
    rolls := fun _ => 0 }

/-- One-day capacity-1 configuration with a NEGATIVE queue-penalty weight. -/
def cfgNegWq : Config := { numDays := 1, C := 1, lifo := false, wr := 1, wq := -1 }

/-- Two-user world whose woman-likes-man probability is 2, outside [0,1]. -/
def envBadProb : Env :=
  { women := [0], men := [1]
    probWM := fun _ _ => 2
    probMW := fun _ _ => 1
    loginOrder := fun _ => [0, 1]
    rolls := fun _ => 0 }

/-- One-day capacity-1 configuration with default-style weights. -/
def cfgPlain : Config := { numDays := 1, C := 1, lifo := false, wr := 1, wq := 1/2 }



/-- Two-women, two-men style scoring world: woman 0 with men 1 and 2, where
she likes man 1 with probability 1/2 and man 2 with probability 1/4. -/
def envScores : Env :=
  { women := [0], men := [1, 2]
    probWM := fun _ c => if c = 1 then 1/2 else 1/4
    probMW := fun _ _ => 1
    loginOrder := fun _ => [0, 1, 2]
    rolls := fun _ => 0 }

/-- Match symmetry: `v ∈ matches[u] ⟺ u ∈ matches[v]` for all users. -/
def SymMatches (st : SimState) : Prop :=
  ∀ u v, v ∈ st.matchSet u ↔ u ∈ st.matchSet v

/-- No reciprocal pair of InterestSentSet entries between distinct users. -/
def NoMutualInterest (st : SimState) : Prop :=
  ∀ u v, u ≠ v → ¬ (v ∈ st.likesSent u ∧ u ∈ st.likesSent v)

/-- The scoring formula of backend.py lines 128-133 over the reals, with a
real-valued reciprocal weight in the exponent (real power), for the
algebraic monotonicity analysis:
`score = P(user→cand) * (1 / (1 + w_q * Q)) * P(cand→user) ^ w_r`. -/
noncomputable def scoreFormula (base wq : ℝ) (q : ℕ) (recip wr : ℝ) : ℝ :=
  base * (1 / (1 + wq * (q : ℝ))) * recip ^ wr

/-! ## Claim C1 — queue drain -/

/-- C1 counterexample.  In `envThree` under LIFO with capacity 1, the woman's
pre-drain queue on day 1 is `[(1,1), (2,1), (3,1)]` in arrival order; she
takes the latest arrival (sender 3, witnessed by her day-1 records), so the
untaken entries in their original arrival order would be `[(1,1), (2,1)]` —
but the code leaves her PendingInterestQueue REVERSED, as `[(2,1), (1,1)]`.
This refutes the claim that the post-take queue retains the untaken entries
in their original arrival order. -/
theorem claim_C1_counterexample :
    ((((runDays envThree cfgLifo1 1).2.getD 0 []).filter
        (fun r => r.user = 0)).map (fun r => r.cand) = [3]) ∧
    (runDays envThree cfgLifo1 1).1.incoming 0 = [(2, 1), (1, 1)] ∧
    (runDays envThree cfgLifo1 1).1.incoming 0 ≠ [(1, 1), (2, 1)] := by
  decide


/-! ## Helper lemmas: the stable sort -/

theorem insertDesc_perm (p : ℕ × ℚ) (l : List (ℕ × ℚ)) :
    (insertDesc p l).Perm (p :: l) := by
  induction l with
  | nil => exact List.Perm.refl _
  | cons q rest ih =>
    by_cases h : q.2 ≤ p.2
    · simp [insertDesc, h]
    · simp only [insertDesc, if_neg h]
      exact ((ih.cons q).trans (List.Perm.swap p q rest))

theorem sortDesc_perm (l : List (ℕ × ℚ)) : (sortDesc l).Perm l := by
  induction l with
  | nil => exact List.Perm.refl _
  | cons p rest ih =>
    exact (insertDesc_perm p (sortDesc rest)).trans (ih.cons p)

theorem insertDesc_pairwise (p : ℕ × ℚ) (l : List (ℕ × ℚ))
    (h : l.Pairwise (fun a b => b.2 ≤ a.2)) :
    (insertDesc p l).Pairwise (fun a b => b.2 ≤ a.2) := by
  induction l with
  | nil => simp [insertDesc]
  | cons q rest ih =>
    rw [List.pairwise_cons] at h
    by_cases hq : q.2 ≤ p.2
    · simp only [insertDesc, if_pos hq]
      refine List.pairwise_cons.mpr ⟨?_, List.pairwise_cons.mpr ⟨h.1, h.2⟩⟩
      intro b hb
      rcases List.mem_cons.mp hb with hb | hb
      · exact hb ▸ hq
      · exact le_trans (h.1 b hb) hq
    · simp only [insertDesc, if_neg hq]
      refine List.pairwise_cons.mpr ⟨?_, ih h.2⟩
      intro b hb
      have hb' := (insertDesc_perm p rest).mem_iff.mp hb
      rcases List.mem_cons.mp hb' with hb' | hb'
      · exact hb' ▸ le_of_lt (not_le.mp hq)
      · exact h.1 b hb'

theorem sortDesc_pairwise (l : List (ℕ × ℚ)) :
    (sortDesc l).Pairwise (fun a b => b.2 ≤ a.2) := by
  induction l with
  | nil => simp [sortDesc]
  | cons p rest ih => exact insertDesc_pairwise p (sortDesc rest) ih

/-! ## Helper lemmas: fresh selection -/

theorem freshSelect_subset (pool : List ℕ) (scoreOf : ℕ → ℚ) (numFresh : ℕ) :
    ∀ c ∈ freshSelect pool scoreOf numFresh, c ∈ pool := by
  intro c hc
  unfold freshSelect at hc
  split at hc
  · rcases List.mem_map.mp hc with ⟨pc, hpc, hfst⟩
    have h1 : pc ∈ sortDesc (pool.map (fun c => (c, scoreOf c))) :=
      (List.take_sublist _ _).mem hpc
    have h2 : pc ∈ pool.map (fun c => (c, scoreOf c)) :=
      (sortDesc_perm _).mem_iff.mp h1
    rcases List.mem_map.mp h2 with ⟨a, ha, hap⟩
    have : a = c := by rw [← hfst, ← hap]
    exact this ▸ ha
  · simp at hc

theorem freshSelect_length (pool : List ℕ) (scoreOf : ℕ → ℚ) (numFresh : ℕ) :
    (freshSelect pool scoreOf numFresh).length = min numFresh pool.length := by
  unfold freshSelect
  split
  · rename_i h
    rw [List.length_map, List.length_take, (sortDesc_perm _).length_eq, List.length_map]
  · rename_i h
    rw [not_and_or] at h
    rcases h with h | h
    · have : numFresh = 0 := by omega
      simp [this]
    · rw [not_not] at h
      have : pool = [] := by
        cases pool with
        | nil => rfl
        | cons a rest => simp at h
      simp [this]

theorem freshSelect_eq_nil_iff (pool : List ℕ) (scoreOf : ℕ → ℚ) (numFresh : ℕ) :
    freshSelect pool scoreOf numFresh = [] ↔ numFresh = 0 ∨ pool = [] := by
  rw [← List.length_eq_zero, freshSelect_length, Nat.min_eq_zero_iff,
    List.length_eq_zero]

theorem freshSelect_top (pool : List ℕ) (scoreOf : ℕ → ℚ) (numFresh : ℕ) :
    ∀ c ∈ freshSelect pool scoreOf numFresh, ∀ d ∈ pool,
      d ∉ freshSelect pool scoreOf numFresh → scoreOf d ≤ scoreOf c := by
  intro c hc d hd hdn
  unfold freshSelect at hc hdn
  split at hc
  case isFalse => simp at hc
  case isTrue h =>
    rw [if_pos h] at hdn
    set pairs := pool.map (fun c => (c, scoreOf c)) with hpairs
    set s := sortDesc pairs with hs
    rcases List.mem_map.mp hc with ⟨pc, hpc, hfst⟩
    have hpc_s : pc ∈ s := (List.take_sublist _ _).mem hpc
    have hpc_pairs : pc ∈ pairs := (sortDesc_perm _).mem_iff.mp hpc_s
    have hpc_snd : pc.2 = scoreOf c := by
      rcases List.mem_map.mp hpc_pairs with ⟨a, _, hap⟩
      have h1 : a = pc.1 := by rw [← hap]
      have h2 : scoreOf a = pc.2 := by rw [← hap]
      rw [← h2, h1, hfst]
    have hd_pairs : (d, scoreOf d) ∈ pairs := List.mem_map.mpr ⟨d, hd, rfl⟩
    have hd_s : (d, scoreOf d) ∈ s := (sortDesc_perm _).mem_iff.mpr hd_pairs
    have hsplit : s.take numFresh ++ s.drop numFresh = s := List.take_append_drop _ _
    have hd_drop : (d, scoreOf d) ∈ s.drop numFresh := by
      rcases (List.mem_append.mp (hsplit ▸ hd_s)) with h' | h'
      · exact absurd (List.mem_map.mpr ⟨(d, scoreOf d), h', rfl⟩) hdn
      · exact h'
    have hpw : (s.take numFresh ++ s.drop numFresh).Pairwise (fun a b => b.2 ≤ a.2) := by
      rw [hsplit]; exact sortDesc_pairwise _
    have := (List.pairwise_append.mp hpw).2.2 pc hpc (d, scoreOf d) hd_drop
    calc scoreOf d ≤ pc.2 := this
    _ = scoreOf c := hpc_snd

theorem freshSelect_nodup (pool : List ℕ) (scoreOf : ℕ → ℚ) (numFresh : ℕ)
    (h : pool.Nodup) : (freshSelect pool scoreOf numFresh).Nodup := by
  unfold freshSelect
  split
  · set pairs := pool.map (fun c => (c, scoreOf c)) with hpairs
    have h1 : (pairs.map Prod.fst).Nodup := by
      have h0 : ∀ (l : List ℕ), (l.map (fun c => (c, scoreOf c))).map Prod.fst = l := by
        intro l
        induction l with
        | nil => rfl
        | cons a t ih => simp only [List.map_cons, ih]
      rw [hpairs, h0 pool]; exact h
    have h2 : ((sortDesc pairs).map Prod.fst).Nodup :=
      (((sortDesc_perm pairs).map Prod.fst).symm).nodup h1
    have h3 : ((sortDesc pairs).take numFresh).map Prod.fst
        = (((sortDesc pairs).map Prod.fst).take numFresh) := by
      rw [List.map_take]
    rw [h3]
    exact (List.take_sublist _ _).nodup h2
  · exact List.nodup_nil

/-! ## Helper lemmas: single evaluations and the queue loop -/

theorem evalOne_record_fields (rolls : ℕ → ℚ) (getProb : ℕ → ℚ) (day user : ℕ)
    (st : SimState) (cand : ℕ) (src : Source) (sentDay : ℕ) :
    (evalOne rolls getProb day user st cand src sentDay).2.user = user ∧
    (evalOne rolls getProb day user st cand src sentDay).2.cand = cand ∧
    (evalOne rolls getProb day user st cand src sentDay).2.day = day ∧
    (evalOne rolls getProb day user st cand src sentDay).2.source = src ∧
    (evalOne rolls getProb day user st cand src sentDay).2.roll = rolls st.rollIdx ∧
    (evalOne rolls getProb day user st cand src sentDay).2.likeProb = getProb cand := by
  simp only [evalOne]
  split_ifs <;> simp

theorem evalOne_record_like (rolls : ℕ → ℚ) (getProb : ℕ → ℚ) (day user : ℕ)
    (st : SimState) (cand : ℕ) (src : Source) (sentDay : ℕ) :
    (evalOne rolls getProb day user st cand src sentDay).2.like
      = decide ((evalOne rolls getProb day user st cand src sentDay).2.roll
                 < (evalOne rolls getProb day user st cand src sentDay).2.likeProb) := by
  simp only [evalOne]
  split_ifs with h1 h2 <;> simp [h1]

theorem evalQueue_records_user (rolls : ℕ → ℚ) (getProb : ℕ → ℚ) (day user : ℕ)
    (items : List (ℕ × Source × ℕ)) :
    ∀ (st : SimState),
      ∀ r ∈ (evalQueue rolls getProb day user items st).2, r.user = user := by
  induction items with
  | nil => intro st r hr; simp [evalQueue] at hr
  | cons it rest ih =>
    intro st r hr
    rw [evalQueue] at hr
    split_ifs at hr
    · exact ih st r hr
    · rcases List.mem_cons.mp hr with hr | hr
      · rw [hr]
        exact (evalOne_record_fields rolls getProb day user st it.1 it.2.1 it.2.2).1
      · exact ih _ r hr

theorem evalQueue_records_like (rolls : ℕ → ℚ) (getProb : ℕ → ℚ) (day user : ℕ)
    (items : List (ℕ × Source × ℕ)) :
    ∀ (st : SimState),
      ∀ r ∈ (evalQueue rolls getProb day user items st).2,
        r.like = decide (r.roll < r.likeProb) := by
  induction items with
  | nil => intro st r hr; simp [evalQueue] at hr
  | cons it rest ih =>
    intro st r hr
    rw [evalQueue] at hr
    split_ifs at hr
    · exact ih st r hr
    · rcases List.mem_cons.mp hr with hr | hr
      · rw [hr]
        exact evalOne_record_like rolls getProb day user st it.1 it.2.1 it.2.2
      · exact ih _ r hr

theorem evalQueue_cands_sublist (rolls : ℕ → ℚ) (getProb : ℕ → ℚ) (day user : ℕ)
    (items : List (ℕ × Source × ℕ)) :
    ∀ (st : SimState),
      ((evalQueue rolls getProb day user items st).2.map (fun r => r.cand)).Sublist
        (items.map (fun it => it.1)) := by
  induction items with
  | nil => intro st; simp [evalQueue]
  | cons it rest ih =>
    intro st
    rw [evalQueue]
    split_ifs
    · exact (ih st).trans (List.sublist_cons_self _ _)
    · simp only [List.map_cons]
      have hc : (evalOne rolls getProb day user st it.1 it.2.1 it.2.2).2.cand = it.1 :=
        (evalOne_record_fields rolls getProb day user st it.1 it.2.1 it.2.2).2.1
      rw [hc]
      exact List.Sublist.cons₂ _ (ih _)

theorem evalQueue_records_length (rolls : ℕ → ℚ) (getProb : ℕ → ℚ) (day user : ℕ)
    (items : List (ℕ × Source × ℕ)) (st : SimState) :
    (evalQueue rolls getProb day user items st).2.length ≤ items.length := by
  have h := (evalQueue_cands_sublist rolls getProb day user items st).length_le
  simpa using h
theorem evalOne_incoming_preserved (rolls : ℕ → ℚ) (getProb : ℕ → ℚ) (day user : ℕ)
    (st : SimState) (cand : ℕ) (src : Source) (sentDay : ℕ)
    (h : src = Source.fresh → cand ≠ user) :
    (evalOne rolls getProb day user st cand src sentDay).1.incoming user
      = st.incoming user := by
  simp only [evalOne]
  split_ifs with h1 h2 h3
  · rfl
  · have hne : user ≠ cand := Ne.symm (h h3)
    simp [hne]
  · rfl
  · rfl

theorem evalQueue_incoming_preserved (rolls : ℕ → ℚ) (getProb : ℕ → ℚ) (day user : ℕ)
    (items : List (ℕ × Source × ℕ))
    (h : ∀ it ∈ items, it.2.1 = Source.fresh → it.1 ≠ user) :
    ∀ st, (evalQueue rolls getProb day user items st).1.incoming user
      = st.incoming user := by
  induction items with
  | nil => intro st; rfl
  | cons it rest ih =>
    intro st
    rw [evalQueue]
    split_ifs
    · exact ih (fun x hx => h x (List.mem_cons_of_mem it hx)) st
    · rw [ih (fun x hx => h x (List.mem_cons_of_mem it hx)) _]
      exact evalOne_incoming_preserved rolls getProb day user st it.1 it.2.1 it.2.2
        (h it (List.mem_cons_self it rest))

theorem freshOf_subset_opp (env : Env) (cfg : Config) (st : SimState) (user : ℕ) :
    ∀ c ∈ freshOf env cfg st user, c ∈ oppPool env user := by
  intro c hc
  have h1 := freshSelect_subset _ _ _ c hc
  unfold poolAfterExclusions at h1
  exact List.mem_of_mem_filter (List.mem_of_mem_filter h1)

theorem processUser_incoming_self (env : Env) (cfg : Config) (day : ℕ)
    (st : SimState) (user : ℕ) (hu : user ∉ oppPool env user) :
    (processUser env cfg day st user).1.incoming user = drainRest cfg st user := by
  unfold processUser
  rw [evalQueue_incoming_preserved]
  · simp [postDrainState]
  · intro it hit hsrc
    unfold dailyQueueOf at hit
    rcases List.mem_append.mp hit with hmem | hmem
    · rcases List.mem_map.mp hmem with ⟨p, _, hp⟩
      rw [← hp] at hsrc
      cases hsrc
    · rcases List.mem_map.mp hmem with ⟨c, hcmem, hp⟩
      rw [← hp]
      intro heq
      exact hu (heq ▸ freshOf_subset_opp env cfg st user c hcmem)

/-! ## Claim C1 (amended) -/

/-- C1 (amended): for every user and every day, the incoming portion taken
is the first `min(queue length, C)` entries of the pending queue viewed
under the configured discipline — FIFO: the queue in stored (arrival)
order, so the earliest entries, with the remainder being the untaken
suffix in original order; LIFO: the stored queue reversed, so the latest
entries in reverse order, with the remainder being the UNTAKEN (earliest)
entries REVERSED rather than in their original arrival order.  After the
take, the user's pending queue equals exactly that remainder (the user's
own processing never re-adds to their own queue). -/
theorem claim_C1_amended (env : Env) (cfg : Config) (day user : ℕ) (st : SimState)
    (q : List (ℕ × ℕ)) (hu : user ∉ oppPool env user) :
    drainIncoming false cfg.C q
      = (q.take (min q.length cfg.C), q.drop (min q.length cfg.C)) ∧
    drainIncoming true cfg.C q
      = ((q.drop (q.length - min q.length cfg.C)).reverse,
         (q.take (q.length - min q.length cfg.C)).reverse) ∧
    (processUser env cfg day st user).1.incoming user
      = (drainIncoming cfg.lifo cfg.C (st.incoming user)).2 := by
  refine ⟨by simp [drainIncoming], ?_, processUser_incoming_self env cfg day st user hu⟩
  simp only [drainIncoming, if_pos, List.length_reverse]
  rw [List.take_reverse, List.drop_reverse]

/-- Witness for C1 (amended), applying the theorem to the LIFO capacity-1
drain of the concrete queue `[(1,1), (2,1), (3,1)]` and to a concrete user. -/
theorem claim_C1_witness :
    drainIncoming true cfgLifo1.C [(1, 1), (2, 1), (3, 1)]
      = ([(3, 1)], [(2, 1), (1, 1)]) ∧
    (processUser envThree cfgLifo1 1 initState 0).1.incoming 0
      = (drainIncoming cfgLifo1.lifo cfgLifo1.C (initState.incoming 0)).2 := by
  have h := claim_C1_amended envThree cfgLifo1 1 0 initState
    [(1, 1), (2, 1), (3, 1)] (by decide)
  refine ⟨?_, h.2.2⟩
  rw [h.2.1]
  decide
/-! ## Claim C3 — fresh scoring and selection -/

/-- C3: for every user-day state, every remaining fresh-pool candidate is
scored as `P(user→cand) × 1/(1 + w_q × Q(cand)) × P(cand→user)^(w_r)` with
`Q(cand)` the LIVE current pending-queue length (read on the state in which
the user's own drain is already committed, which itself evolves as earlier
users of the day act); the fresh list has length `min(C − n_in, |pool|)`,
consists of pool members, is empty exactly when `C − n_in = 0` or the pool
is empty, and is top-ranked: every non-selected pool candidate scores no
higher than every selected one (the selection is deterministic by
construction, ties resolved by stable sort order). -/
theorem claim_C3 (env : Env) (cfg : Config) (st : SimState) (user : ℕ) :
    (∀ c, liveScore env cfg st user c
        = getProbFn env user c
            * (1 / (1 + cfg.wq * (((postDrainState cfg st user).incoming c).length : ℚ)))
            * getRecipFn env user c ^ cfg.wr) ∧
    (freshOf env cfg st user).length
      = min (cfg.C - (drainedQueue cfg st user).length)
          (poolAfterExclusions env cfg st user).length ∧
    (freshOf env cfg st user = []
      ↔ cfg.C - (drainedQueue cfg st user).length = 0
          ∨ poolAfterExclusions env cfg st user = []) ∧
    (∀ c ∈ freshOf env cfg st user, c ∈ poolAfterExclusions env cfg st user) ∧
    (∀ c ∈ freshOf env cfg st user, ∀ d ∈ poolAfterExclusions env cfg st user,
      d ∉ freshOf env cfg st user
        → liveScore env cfg st user d ≤ liveScore env cfg st user c) :=
  ⟨fun _ => rfl, freshSelect_length _ _ _, freshSelect_eq_nil_iff _ _ _,
    freshSelect_subset _ _ _, freshSelect_top _ _ _⟩

/-- Witness for C3 on a concrete world: with capacity 1 and an empty queue,
woman 0 is recommended man 1 (score 1/2) over man 2 (score 1/4), and the
theorem yields the comparison between the non-selected and selected score. -/
theorem claim_C3_witness :
    freshOf envScores cfgPlain initState 0 = [1] ∧
    liveScore envScores cfgPlain initState 0 2 ≤ liveScore envScores cfgPlain initState 0 1 := by
  have hfresh : freshOf envScores cfgPlain initState 0 = [1] := by
    norm_num [freshOf, freshSelect, sortDesc, insertDesc, poolAfterExclusions, oppPool,
      isWoman, envScores, cfgPlain, drainedQueue, drainIncoming, initState,
      liveScore, qScore, getProbFn, getRecipFn, postDrainState, drainRest]
    simp
  have hpool : poolAfterExclusions envScores cfgPlain initState 0 = [1, 2] := by
    norm_num [poolAfterExclusions, oppPool, isWoman, envScores, cfgPlain,
      drainedQueue, drainIncoming, initState]
  refine ⟨hfresh, ?_⟩
  exact (claim_C3 envScores cfgPlain initState 0).2.2.2.2 1 (by rw [hfresh]; simp)
    2 (by rw [hpool]; simp) (by rw [hfresh]; simp)
/-! ## Claim C4 — state updates on an interested decision -/

/-- C4: for an evaluation whose roll is below the probability (decision
"interested"): if the evaluator is already in the candidate's
InterestSentSet, a match forms immediately and each user joins the other's
MatchSet (interest and pending state untouched); otherwise the candidate is
added to the evaluator's InterestSentSet and a pending entry
`(user, currentDay)` is appended to the candidate's queue exactly when the
source is "fresh" — for an "incoming" source no pending entry is created
anywhere. -/
theorem claim_C4 (rolls : ℕ → ℚ) (getProb : ℕ → ℚ) (day user : ℕ) (st : SimState)
    (cand : ℕ) (src : Source) (sentDay : ℕ)
    (hlike : rolls st.rollIdx < getProb cand) (hne : cand ≠ user) :
    (user ∈ st.likesSent cand →
      ((evalOne rolls getProb day user st cand src sentDay).2.matchFormed = true ∧
       (evalOne rolls getProb day user st cand src sentDay).1.matchSet user
         = insert cand (st.matchSet user) ∧
       (evalOne rolls getProb day user st cand src sentDay).1.matchSet cand
         = insert user (st.matchSet cand) ∧
       (evalOne rolls getProb day user st cand src sentDay).1.likesSent = st.likesSent ∧
       (evalOne rolls getProb day user st cand src sentDay).1.incoming = st.incoming)) ∧
    (user ∉ st.likesSent cand →
      ((evalOne rolls getProb day user st cand src sentDay).2.matchFormed = false ∧
       (evalOne rolls getProb day user st cand src sentDay).1.matchSet = st.matchSet ∧
       (evalOne rolls getProb day user st cand src sentDay).1.likesSent user
         = insert cand (st.likesSent user) ∧
       (src = Source.fresh →
         (evalOne rolls getProb day user st cand src sentDay).1.incoming cand
           = st.incoming cand ++ [(user, day)]) ∧
       (src = Source.incoming →
         (evalOne rolls getProb day user st cand src sentDay).1.incoming
           = st.incoming))) := by
  constructor
  · intro hmem
    simp only [evalOne, if_pos hlike, if_pos hmem]
    refine ⟨?_, ?_, ?_, ?_, ?_⟩ <;> first | trivial | simp [hne, Ne.symm hne]
  · intro hmem
    simp only [evalOne, if_pos hlike, if_neg hmem]
    refine ⟨?_, ?_, ?_, fun hsrc => ?_, fun hsrc => ?_⟩ <;> first | trivial | simp [*]

/-- Witness for C4: a fresh-source interested evaluation by user 0 of
candidate 1 from the empty initial state appends `(0, 1)` to candidate 1's
pending queue and forms no match. -/
theorem claim_C4_witness :
    (evalOne (fun _ => 0) (fun _ => 1) 1 0 initState 1 Source.fresh 1).2.matchFormed
      = false ∧
    (evalOne (fun _ => 0) (fun _ => 1) 1 0 initState 1 Source.fresh 1).1.incoming 1
      = initState.incoming 1 ++ [(0, 1)] := by
  have h := claim_C4 (fun _ => 0) (fun _ => 1) 1 0 initState 1 Source.fresh 1
    (by norm_num) (by decide)
  have h2 := h.2 (by simp [initState])
  exact ⟨h2.1, h2.2.2.2.1 rfl⟩
/-! ## Claim C5 — match symmetry -/

theorem symMatches_update (M : ℕ → Finset ℕ) (user cand : ℕ)
    (h : ∀ u v, v ∈ M u ↔ u ∈ M v) :
    ∀ a b, (b ∈ if a = user then insert cand (M user)
                else if a = cand then insert user (M cand) else M a)
         ↔ (a ∈ if b = user then insert cand (M user)
                else if b = cand then insert user (M cand) else M b) := by
  have key : ∀ x y : ℕ,
      (y ∈ if x = user then insert cand (M user)
           else if x = cand then insert user (M cand) else M x)
        ↔ (y ∈ M x ∨ (x = user ∧ y = cand) ∨ (x = cand ∧ y = user)) := by
    intro x y
    by_cases hxu : x = user
    · subst hxu
      rw [if_pos rfl]
      rw [Finset.mem_insert]
      constructor
      · rintro (rfl | hy)
        · exact Or.inr (Or.inl ⟨rfl, rfl⟩)
        · exact Or.inl hy
      · rintro (hy | ⟨-, rfl⟩ | ⟨hxc, rfl⟩)
        · exact Or.inr hy
        · exact Or.inl rfl
        · exact Or.inl hxc
    · rw [if_neg hxu]
      by_cases hxc : x = cand
      · subst hxc
        rw [if_pos rfl]
        rw [Finset.mem_insert]
        constructor
        · rintro (rfl | hy)
          · exact Or.inr (Or.inr ⟨rfl, rfl⟩)
          · exact Or.inl hy
        · rintro (hy | ⟨hxy, rfl⟩ | ⟨-, rfl⟩)
          · exact Or.inr hy
          · exact absurd hxy hxu
          · exact Or.inl rfl
      · rw [if_neg hxc]
        constructor
        · intro hy; exact Or.inl hy
        · rintro (hy | ⟨hx, -⟩ | ⟨hx, -⟩)
          · exact hy
          · exact absurd hx hxu
          · exact absurd hx hxc
  intro a b
  rw [key a b, key b a]
  have hab := h a b
  tauto

theorem evalOne_symMatches (rolls : ℕ → ℚ) (getProb : ℕ → ℚ) (day user : ℕ)
    (st : SimState) (cand : ℕ) (src : Source) (sentDay : ℕ)
    (h : SymMatches st) :
    SymMatches (evalOne rolls getProb day user st cand src sentDay).1 := by
  simp only [evalOne]
  split_ifs with h1 h2 h3
  · exact symMatches_update st.matchSet user cand h
  · exact h
  · exact h
  · exact h

theorem evalQueue_symMatches (rolls : ℕ → ℚ) (getProb : ℕ → ℚ) (day user : ℕ)
    (items : List (ℕ × Source × ℕ)) :
    ∀ st, SymMatches st → SymMatches (evalQueue rolls getProb day user items st).1 := by
  induction items with
  | nil => intro st h; exact h
  | cons it rest ih =>
    intro st h
    rw [evalQueue]
    split_ifs
    · exact ih st h
    · exact ih _ (evalOne_symMatches rolls getProb day user st it.1 it.2.1 it.2.2 h)

theorem processUser_symMatches (env : Env) (cfg : Config) (day : ℕ)
    (st : SimState) (user : ℕ) (h : SymMatches st) :
    SymMatches (processUser env cfg day st user).1 :=
  evalQueue_symMatches _ _ _ _ _ _ h

theorem runDayUsers_symMatches (env : Env) (cfg : Config) (day : ℕ)
    (order : List ℕ) :
    ∀ st, SymMatches st → SymMatches (runDayUsers env cfg day order st).1 := by
  induction order with
  | nil => intro st h; exact h
  | cons u rest ih =>
    intro st h
    exact ih _ (processUser_symMatches env cfg day st u h)

theorem runDays_symMatches (env : Env) (cfg : Config) :
    ∀ k, SymMatches (runDays env cfg k).1 := by
  intro k
  induction k with
  | zero => intro u v; simp [runDays, initState]
  | succ n ih => exact runDayUsers_symMatches env cfg (n + 1) _ _ ih

/-- C5: for all users u and v, v ∈ MatchSet[u] iff u ∈ MatchSet[v] — after
every completed day of any run (first conjunct), and indeed every single
candidate evaluation preserves the symmetry (second conjunct). -/
theorem claim_C5 :
    (∀ env cfg k, SymMatches (runDays env cfg k).1) ∧
    (∀ (rolls : ℕ → ℚ) (getProb : ℕ → ℚ) (day user : ℕ) (st : SimState)
       (cand : ℕ) (src : Source) (sentDay : ℕ), SymMatches st →
        SymMatches (evalOne rolls getProb day user st cand src sentDay).1) :=
  ⟨fun env cfg k => runDays_symMatches env cfg k,
   fun rolls getProb day user st cand src sentDay h =>
     evalOne_symMatches rolls getProb day user st cand src sentDay h⟩

/-- Witness for C5: the symmetry-preservation conjunct applied to a concrete
evaluation step from the (symmetric) initial state. -/
theorem claim_C5_witness :
    SymMatches (evalOne (fun _ => 0) (fun _ => 1) 1 0 initState 1 Source.fresh 1).1 :=
  claim_C5.2 (fun _ => 0) (fun _ => 1) 1 0 initState 1 Source.fresh 1
    (fun u v => by simp [initState])
/-! ## Claim C10 — no reciprocal InterestSentSet entries -/

theorem noMutual_update (LS : ℕ → Finset ℕ) (user cand : ℕ)
    (h : ∀ u v, u ≠ v → ¬ (v ∈ LS u ∧ u ∈ LS v)) (hguard : user ∉ LS cand) :
    ∀ a b, a ≠ b →
      ¬ (b ∈ (if a = user then insert cand (LS user) else LS a)
          ∧ a ∈ (if b = user then insert cand (LS user) else LS b)) := by
  have key : ∀ x y : ℕ,
      (y ∈ if x = user then insert cand (LS user) else LS x)
        ↔ (y ∈ LS x ∨ (x = user ∧ y = cand)) := by
    intro x y
    by_cases hxu : x = user
    · subst hxu
      rw [if_pos rfl, Finset.mem_insert]
      constructor
      · rintro (rfl | hy)
        · exact Or.inr ⟨rfl, rfl⟩
        · exact Or.inl hy
      · rintro (hy | ⟨-, rfl⟩)
        · exact Or.inr hy
        · exact Or.inl rfl
    · rw [if_neg hxu]
      constructor
      · exact fun hy => Or.inl hy
      · rintro (hy | ⟨hx, -⟩)
        · exact hy
        · exact absurd hx hxu
  intro a b hab
  rw [key a b, key b a]
  rintro ⟨hb, ha⟩
  rcases hb with hb | ⟨hau, hbc⟩ <;> rcases ha with ha | ⟨hbu, hac⟩
  · exact h a b hab ⟨hb, ha⟩
  · subst hbu; subst hac; exact hguard hb
  · subst hau; subst hbc; exact hguard ha
  · subst hau; subst hbu; exact hab rfl

theorem evalOne_noMutual (rolls : ℕ → ℚ) (getProb : ℕ → ℚ) (day user : ℕ)
    (st : SimState) (cand : ℕ) (src : Source) (sentDay : ℕ)
    (h : NoMutualInterest st) :
    NoMutualInterest (evalOne rolls getProb day user st cand src sentDay).1 := by
  simp only [evalOne]
  split_ifs with h1 h2 h3
  · exact h
  · exact noMutual_update st.likesSent user cand h h2
  · exact noMutual_update st.likesSent user cand h h2
  · exact h

theorem evalQueue_noMutual (rolls : ℕ → ℚ) (getProb : ℕ → ℚ) (day user : ℕ)
    (items : List (ℕ × Source × ℕ)) :
    ∀ st, NoMutualInterest st
      → NoMutualInterest (evalQueue rolls getProb day user items st).1 := by
  induction items with
  | nil => intro st h; exact h
  | cons it rest ih =>
    intro st h
    rw [evalQueue]
    split_ifs
    · exact ih st h
    · exact ih _ (evalOne_noMutual rolls getProb day user st it.1 it.2.1 it.2.2 h)

theorem processUser_noMutual (env : Env) (cfg : Config) (day : ℕ)
    (st : SimState) (user : ℕ) (h : NoMutualInterest st) :
    NoMutualInterest (processUser env cfg day st user).1 :=
  evalQueue_noMutual _ _ _ _ _ _ h

theorem runDayUsers_noMutual (env : Env) (cfg : Config) (day : ℕ)
    (order : List ℕ) :
    ∀ st, NoMutualInterest st
      → NoMutualInterest (runDayUsers env cfg day order st).1 := by
  induction order with
  | nil => intro st h; exact h
  | cons u rest ih =>
    intro st h
    exact ih _ (processUser_noMutual env cfg day st u h)

theorem runDays_noMutual (env : Env) (cfg : Config) :
    ∀ k, NoMutualInterest (runDays env cfg k).1 := by
  intro k
  induction k with
  | zero => intro u v hne hand; simp [runDays, initState] at hand
  | succ n ih => exact runDayUsers_noMutual env cfg (n + 1) _ _ ih

/-- C10: for distinct users u and v it never happens that both
v ∈ InterestSentSet[u] and u ∈ InterestSentSet[v] — after every completed
day of any run (first conjunct), and every single evaluation preserves the
property (second conjunct): the like that completes a match is recorded
only in the MatchSets, never as a reciprocal InterestSentSet entry. -/
theorem claim_C10 :
    (∀ env cfg k, NoMutualInterest (runDays env cfg k).1) ∧
    (∀ (rolls : ℕ → ℚ) (getProb : ℕ → ℚ) (day user : ℕ) (st : SimState)
       (cand : ℕ) (src : Source) (sentDay : ℕ), NoMutualInterest st →
        NoMutualInterest (evalOne rolls getProb day user st cand src sentDay).1) :=
  ⟨fun env cfg k => runDays_noMutual env cfg k,
   fun rolls getProb day user st cand src sentDay h =>
     evalOne_noMutual rolls getProb day user st cand src sentDay h⟩

/-- Witness for C10: the preservation conjunct applied to a concrete
evaluation from the (mutual-interest-free) initial state. -/
theorem claim_C10_witness :
    NoMutualInterest (evalOne (fun _ => 0) (fun _ => 1) 2 1 initState 0 Source.incoming 1).1 :=
  claim_C10.2 (fun _ => 0) (fun _ => 1) 2 1 initState 0 Source.incoming 1
    (fun u v hne hand => by simp [initState] at hand)
/-! ## Claim C6 — daily capacity bound -/

theorem processUser_records_user (env : Env) (cfg : Config) (day : ℕ)
    (st : SimState) (user : ℕ) :
    ∀ r ∈ (processUser env cfg day st user).2, r.user = user :=
  evalQueue_records_user _ _ _ _ _ _

theorem drainedQueue_length_le (cfg : Config) (st : SimState) (user : ℕ) :
    (drainedQueue cfg st user).length ≤ cfg.C := by
  simp only [drainedQueue, drainIncoming, List.length_take]
  omega

theorem processUser_records_length (env : Env) (cfg : Config) (day : ℕ)
    (st : SimState) (user : ℕ) :
    (processUser env cfg day st user).2.length ≤ cfg.C := by
  unfold processUser
  refine le_trans (evalQueue_records_length _ _ _ _ _ _) ?_
  unfold dailyQueueOf
  rw [List.length_append, List.length_map, List.length_map]
  have h1 : (drainedQueue cfg st user).length ≤ cfg.C :=
    drainedQueue_length_le cfg st user
  have h2 : (freshOf env cfg st user).length
      ≤ cfg.C - (drainedQueue cfg st user).length := by
    unfold freshOf
    rw [freshSelect_length]
    exact min_le_left _ _
  omega

theorem runDayUsers_filter_user_nil (env : Env) (cfg : Config) (day : ℕ)
    (order : List ℕ) (u : ℕ) (hu : u ∉ order) :
    ∀ st, (runDayUsers env cfg day order st).2.filter (fun r => r.user = u) = [] := by
  induction order with
  | nil => intro st; rfl
  | cons a rest ih =>
    intro st
    rw [runDayUsers]
    simp only [List.filter_append]
    have ha : a ≠ u := fun hh => hu (hh ▸ List.mem_cons_self a rest)
    have hseg : (processUser env cfg day st a).2.filter (fun r => r.user = u) = [] := by
      rw [List.filter_eq_nil_iff]
      intro r hr
      have hru := processUser_records_user env cfg day st a r hr
      simp [hru, ha]
    rw [hseg, ih (fun hh => hu (List.mem_cons_of_mem a hh))]
    rfl

theorem runDayUsers_filter_user_len (env : Env) (cfg : Config) (day : ℕ)
    (order : List ℕ) (u : ℕ) (hnd : order.Nodup) :
    ∀ st, ((runDayUsers env cfg day order st).2.filter
      (fun r => r.user = u)).length ≤ cfg.C := by
  induction order with
  | nil => intro st; simp [runDayUsers]
  | cons a rest ih =>
    intro st
    rw [runDayUsers]
    simp only [List.filter_append, List.length_append]
    rcases List.nodup_cons.mp hnd with ⟨hnot, hrest⟩
    by_cases hau : a = u
    · subst hau
      have hseg : (processUser env cfg day st a).2.filter (fun r => r.user = a)
          = (processUser env cfg day st a).2 := by
        rw [List.filter_eq_self]
        intro r hr
        simp [processUser_records_user env cfg day st a r hr]
      rw [hseg, runDayUsers_filter_user_nil env cfg day rest a hnot]
      simpa using processUser_records_length env cfg day st a
    · have hseg : (processUser env cfg day st a).2.filter (fun r => r.user = u) = [] := by
        rw [List.filter_eq_nil_iff]
        intro r hr
        have hru := processUser_records_user env cfg day st a r hr
        simp [hru, hau]
      rw [hseg]
      simpa using ih hrest _

/-- C6: when the day's login order repeats no user (as `random.shuffle`
guarantees), the number of EvaluationRecords a given user receives in one
day's log is at most the configured daily capacity: the incoming portion
contributes at most `min(queue length, C)` records, the fresh portion at
most `C − n_in`, and skipped already-matched candidates only reduce the
count. -/
theorem claim_C6 (env : Env) (cfg : Config) (day : ℕ) (st : SimState) (u : ℕ)
    (h : (env.loginOrder day).Nodup) :
    (((runDay env cfg day st).2).filter (fun r => r.user = u)).length ≤ cfg.C :=
  runDayUsers_filter_user_len env cfg day (env.loginOrder day) u h st

/-- Witness for C6 on the concrete three-men world, day 1, woman 0. -/
theorem claim_C6_witness :
    (((runDay envThree cfgFifo2 1 initState).2).filter
      (fun r => r.user = 0)).length ≤ cfgFifo2.C :=
  claim_C6 envThree cfgFifo2 1 initState 0 (by decide)
/-! ## Claim C2 — no duplicate evaluations within a day -/

/-- C2 counterexample.  In `envThree` (FIFO, capacity 2, two days): on
day 1 men 1, 2, 3 each send woman 0 a fresh like, and she drains only the
two earliest, leaving `(3, 1)` pending; on day 2 man 3 (logging in first)
sends her a SECOND fresh like — the queue now holds the duplicate entries
`(3, 1)` and `(3, 2)` — and she then drains and evaluates candidate 3
twice in the same day.  Her day-2 records name candidates `[3, 3]`,
refuting the claim that a user never evaluates the same candidate twice
within a day. -/
theorem claim_C2_counterexample :
    ((((runSim envThree cfgFifo2).2.getD 1 []).filter
        (fun r => r.user = 0)).map (fun r => r.cand) = [3, 3]) ∧
    ¬ ((((runSim envThree cfgFifo2).2.getD 1 []).filter
        (fun r => r.user = 0)).map (fun r => r.cand)).Nodup := by
  decide

/-- C2 (amended): within one user-day, the fresh portion never overlaps the
incoming portion and contains no duplicates; a candidate can be evaluated
twice only when the drained incoming portion itself contains duplicate
senders.  Formally: whenever the opposite-group list has no duplicates and
the drained incoming entries have pairwise-distinct senders, the user's
records for the day name pairwise-distinct candidates. -/
theorem claim_C2_amended (env : Env) (cfg : Config) (day : ℕ) (st : SimState)
    (user : ℕ) (hpool : (oppPool env user).Nodup)
    (hinc : ((drainedQueue cfg st user).map Prod.fst).Nodup) :
    (((processUser env cfg day st user).2).map (fun r => r.cand)).Nodup := by
  have hsub := evalQueue_cands_sublist env.rolls (getProbFn env user) day user
    (dailyQueueOf env cfg day st user) (postDrainState cfg st user)
  refine hsub.nodup ?_
  unfold dailyQueueOf
  rw [List.map_append, List.map_map, List.map_map]
  have e1 : ((fun it : ℕ × Source × ℕ => it.1) ∘ fun p : ℕ × ℕ => (p.1, Source.incoming, p.2))
      = (Prod.fst : ℕ × ℕ → ℕ) := rfl
  have e2 : ((fun it : ℕ × Source × ℕ => it.1) ∘ fun c : ℕ => (c, Source.fresh, day))
      = id := rfl
  rw [e1, e2, List.map_id]
  rw [List.nodup_append]
  refine ⟨hinc, ?_, ?_⟩
  · exact freshSelect_nodup _ _ _ ((hpool.filter _).filter _)
  · intro x hx hxB
    have h1 := freshSelect_subset _ _ _ x hxB
    unfold poolAfterExclusions at h1
    have h2 := List.of_mem_filter h1
    simp only [decide_not, Bool.not_eq_true', decide_eq_false_iff_not] at h2
    exact h2 hx

/-- Witness for C2 (amended) at a concrete user-day with an empty (hence
duplicate-free) drained portion. -/
theorem claim_C2_witness :
    (((processUser envThree cfgFifo2 1 initState 0).2).map (fun r => r.cand)).Nodup :=
  claim_C2_amended envThree cfgFifo2 1 initState 0 (by decide) (by decide)
/-! ## Claim C7 — configuration validation -/

/-- C7 counterexample.  `run_dating_simulation` performs no configuration
validation: with the NEGATIVE queue-penalty weight `wq = -1` (a
configuration the claim says must fail with ConfigError before any day is
simulated) the run starts, simulates its day, produces two evaluation
records — the second of which forms a match — and returns normally. -/
theorem claim_C7_counterexample :
    cfgNegWq.wq < 0 ∧
    (runSim envPair cfgNegWq).2 ≠ [] ∧
    ((runSim envPair cfgNegWq).2.getD 0 []).length = 2 ∧
    ((runSim envPair cfgNegWq).2.getD 0 []).map (fun r => r.matchFormed)
      = [false, true] := by
  refine ⟨?_, by decide, by decide, by decide⟩
  show (-1 : ℚ) < 0
  norm_num

theorem runDays_log_length (env : Env) (cfg : Config) :
    ∀ k, ((runDays env cfg k).2).length = k := by
  intro k
  induction k with
  | zero => rfl
  | succ n ih => simp [runDays, ih]

/-- C7 (amended): initialization performs no validation at all — there is
no ConfigError path in the code, and the run always STARTS regardless of
configuration (the counterexample's negative-weight run produces records
and a match).  For every configuration in the valid weight range
`w_q ≥ 0` — a capacity below 1 included — every scoring denominator
`1 + w_q·Q` stays strictly positive (first conjunct; the program's only
failure point for invalid weights, backend.py line 131, can then never
divide by zero) and the run executes all `numDays` days, returning one
log segment per day (second conjunct).  A negative `w_q` can instead
abort the program mid-run with a ZeroDivisionError once some candidate's
queue length satisfies `1 + w_q·Q = 0` — still never with a ConfigError,
and never before day simulation begins. -/
theorem claim_C7_amended (env : Env) (cfg : Config) (h : 0 ≤ cfg.wq) :
    (∀ q : ℕ, 0 < 1 + cfg.wq * (q : ℚ)) ∧
    ((runSim env cfg).2).length = cfg.numDays := by
  refine ⟨fun q => ?_, runDays_log_length env cfg cfg.numDays⟩
  have h0 : (0:ℚ) ≤ cfg.wq * (q : ℚ) := mul_nonneg h (Nat.cast_nonneg q)
  linarith

/-- Witness for C7 (amended) at the default-style configuration with
`w_q = 1/2 ≥ 0`. -/
theorem claim_C7_witness :
    (0:ℚ) < 1 + cfgPlain.wq * ((3 : ℕ) : ℚ) ∧
    ((runSim envPair cfgPlain).2).length = cfgPlain.numDays := by
  have h := claim_C7_amended envPair cfgPlain (by norm_num [cfgPlain])
  exact ⟨h.1 3, h.2⟩

/-! ## Claim C8 — malformed probability values -/

/-- C8 counterexample.  With the out-of-range probability 2 configured for
woman 0 towards man 1, the run does not abort: the malformed value is used
as-is in her day-1 evaluation (first record, probability 2, decision
"Like"), and the full one-day log is returned to the caller. -/
theorem claim_C8_counterexample :
    ¬ ((2 : ℚ) ≤ 1) ∧
    ((runSim envBadProb cfgPlain).2.getD 0 []).map (fun r => (r.likeProb, r.like))
      = [(2, true), (1, true)] ∧
    ((runSim envBadProb cfgPlain).2).length = cfgPlain.numDays := by
  decide

theorem runDayUsers_records_like (env : Env) (cfg : Config) (day : ℕ)
    (order : List ℕ) :
    ∀ st, ∀ r ∈ (runDayUsers env cfg day order st).2,
      r.like = decide (r.roll < r.likeProb) := by
  induction order with
  | nil => intro st r hr; simp [runDayUsers] at hr
  | cons a rest ih =>
    intro st r hr
    rw [runDayUsers] at hr
    rcases List.mem_append.mp hr with hr | hr
    · exact evalQueue_records_like _ _ _ _ _ _ r hr
    · exact ih _ r hr

/-- C8 (amended): probability values are never validated and there is no
DataError path in the code; any value — in range or not — feeds the
decision unchanged: every record of every day's log satisfies
`decision = (roll < probability)` exactly, and an out-of-range probability
does not by itself abort the run (the counterexample's run with
probability 2 returns its full log).  This totality is stated for the
modelled parameter space (rational probabilities, natural reciprocal
weight); in the program a NEGATIVE probability combined with a fractional
reciprocal weight can still kill the run indirectly — the float power
goes complex and `sorted` raises a TypeError — but that is an unhandled
crash during scoring, not the spec's DataError, and no per-day
checkpointing or partial-log salvaging exists on any path. -/
theorem claim_C8_amended (env : Env) (cfg : Config) (dayRecs : List EvalRecord)
    (r : EvalRecord) (hd : dayRecs ∈ (runSim env cfg).2) (hr : r ∈ dayRecs) :
    r.like = decide (r.roll < r.likeProb) := by
  unfold runSim at hd
  revert hd
  induction cfg.numDays with
  | zero => intro hd; simp [runDays] at hd
  | succ n ih =>
    intro hd
    rw [runDays] at hd
    rcases List.mem_append.mp hd with hd | hd
    · exact ih hd
    · rw [List.mem_singleton] at hd
      subst hd
      exact runDayUsers_records_like env cfg (n + 1) _ _ r hr

/-- Witness for C8 (amended): the record carrying the malformed
probability 2 in the `envBadProb` run satisfies the decision equation. -/
theorem claim_C8_witness :
    (⟨1, 0, 1, Source.fresh, 2, 0, true, false, 0⟩ : EvalRecord).like
      = decide ((⟨1, 0, 1, Source.fresh, 2, 0, true, false, 0⟩ : EvalRecord).roll
          < (⟨1, 0, 1, Source.fresh, 2, 0, true, false, 0⟩ : EvalRecord).likeProb) :=
  claim_C8_amended envBadProb cfgPlain ((runSim envBadProb cfgPlain).2.getD 0 [])
    ⟨1, 0, 1, Source.fresh, 2, 0, true, false, 0⟩ (by decide) (by decide)
/-! ## Claim C9 — score monotonicity in the weights -/

/-- C9 counterexample.  The claimed STRICT monotonicity in the reciprocal
weight fails at boundary probabilities: with P(user→cand) = 0 the score is
identically 0, so raising `w_r` from 0 to 1 does not strictly increase the
score even though the reciprocal probability 2 exceeds 1 (first part); and
with reciprocal probability 0 (which is below 1) raising `w_r` from 1 to 2
does not strictly decrease the score (second part). -/
theorem claim_C9_counterexample :
    ((1:ℝ) < 2 ∧ (0:ℝ) < 1 ∧
      ¬ scoreFormula 0 1 0 2 0 < scoreFormula 0 1 0 2 1) ∧
    ((0:ℝ) < 1 ∧ (1:ℝ) < 2 ∧
      ¬ scoreFormula 1 1 0 0 2 < scoreFormula 1 1 0 0 1) := by
  have hz2 : (0:ℝ) ^ (2:ℝ) = 0 := Real.zero_rpow (by norm_num)
  have hz1 : (0:ℝ) ^ (1:ℝ) = 0 := Real.zero_rpow (by norm_num)
  refine ⟨⟨by norm_num, by norm_num, ?_⟩, ⟨by norm_num, by norm_num, ?_⟩⟩
  · simp [scoreFormula]
  · simp [scoreFormula, hz1, hz2]

/-- C9 (amended): for fixed probabilities and live queue length, with the
weights in their configured range (`w_q ≥ 0`): the score is non-increasing
in `weightQueuePenalty`; and — provided additionally that the base
probability is strictly positive — increasing `weightReciprocal` strictly
increases the score when the reciprocal probability exceeds 1, strictly
decreases it when the reciprocal probability lies strictly between 0 and 1,
and has no effect when the reciprocal probability is exactly 1. -/
theorem claim_C9_amended (base wq wq' recip wr wr' : ℝ) (q : ℕ) :
    (0 ≤ base → 0 ≤ recip → 0 ≤ wq → wq ≤ wq' →
      scoreFormula base wq' q recip wr ≤ scoreFormula base wq q recip wr) ∧
    (0 < base → 0 ≤ wq → 1 < recip → wr < wr' →
      scoreFormula base wq q recip wr < scoreFormula base wq q recip wr') ∧
    (0 < base → 0 ≤ wq → 0 < recip → recip < 1 → wr < wr' →
      scoreFormula base wq q recip wr' < scoreFormula base wq q recip wr) ∧
    (recip = 1 → scoreFormula base wq q recip wr = scoreFormula base wq q recip wr') := by
  have hq : (0:ℝ) ≤ (q:ℝ) := Nat.cast_nonneg q
  refine ⟨?_, ?_, ?_, ?_⟩
  · intro hb hr0 hw hww
    unfold scoreFormula
    have hd : (0:ℝ) < 1 + wq * q := by nlinarith
    have hdle : 1 + wq * q ≤ 1 + wq' * q := by nlinarith
    have hfle : 1 / (1 + wq' * q) ≤ 1 / (1 + wq * q) :=
      one_div_le_one_div_of_le hd hdle
    have hpow : (0:ℝ) ≤ recip ^ wr := Real.rpow_nonneg hr0 wr
    have hbf : base * (1 / (1 + wq' * q)) ≤ base * (1 / (1 + wq * q)) :=
      mul_le_mul_of_nonneg_left hfle hb
    exact mul_le_mul_of_nonneg_right hbf hpow
  · intro hb hw hr1 hww
    unfold scoreFormula
    have hd : (0:ℝ) < 1 + wq * q := by nlinarith
    have hpre : (0:ℝ) < base * (1 / (1 + wq * q)) :=
      mul_pos hb (one_div_pos.mpr hd)
    have hpow : recip ^ wr < recip ^ wr' :=
      (Real.rpow_lt_rpow_left_iff hr1).mpr hww
    exact mul_lt_mul_of_pos_left hpow hpre
  · intro hb hw hr0 hr1 hww
    unfold scoreFormula
    have hd : (0:ℝ) < 1 + wq * q := by nlinarith
    have hpre : (0:ℝ) < base * (1 / (1 + wq * q)) :=
      mul_pos hb (one_div_pos.mpr hd)
    have hpow : recip ^ wr' < recip ^ wr :=
      Real.rpow_lt_rpow_of_exponent_gt hr0 hr1 hww
    exact mul_lt_mul_of_pos_left hpow hpre
  · intro h1
    subst h1
    unfold scoreFormula
    rw [Real.one_rpow, Real.one_rpow]

/-- Witness for C9 (amended) at concrete weights and probabilities. -/
theorem claim_C9_witness :
    scoreFormula (1/2) 2 1 (1/2) 1 ≤ scoreFormula (1/2) 1 1 (1/2) 1 ∧
    scoreFormula (1/2) 1 1 2 1 < scoreFormula (1/2) 1 1 2 2 ∧
    scoreFormula (1/2) 1 1 (1/2) 2 < scoreFormula (1/2) 1 1 (1/2) 1 ∧
    scoreFormula (1/2) 1 1 1 5 = scoreFormula (1/2) 1 1 1 7 := by
  refine ⟨?_, ?_, ?_, ?_⟩
  · exact (claim_C9_amended (1/2) 1 2 (1/2) 1 1 1).1
      (by norm_num) (by norm_num) (by norm_num) (by norm_num)
  · exact (claim_C9_amended (1/2) 1 1 2 1 2 1).2.1
      (by norm_num) (by norm_num) (by norm_num) (by norm_num)
  · exact (claim_C9_amended (1/2) 1 1 (1/2) 1 2 1).2.2.1
      (by norm_num) (by norm_num) (by norm_num) (by norm_num) (by norm_num)
  · exact (claim_C9_amended (1/2) 1 1 1 5 7 1).2.2.2 rfl
end DatingSim
